import Mathlib

/-
Verification of the fipy module-overlap analysis library.

This file gives a shallow embedding of the statistical core of the
repository (reactome/fipy): the pairwise module-overlap analysis of
`overlap.py`, the Benjamini-Hochberg FDR correction it delegates to
(statsmodels `multipletests(..., method='fdr_bh')`, i.e. `fdrcorrection`
with independent method), the shared/unshared partitioning, the cluster
ordering operations of `network.py`, the tabular response parsing of
`rest.py`, and the diagram file-name derivation of `diagram.py` /
`enrichment.py`.  Gene symbols are represented by natural-number codes;
pandas series of gene sets become lists of `GeneModule`; exact rational
arithmetic (`ℚ`) stands in for floating point.
-/

namespace Fipy

/-- Gene symbols are represented by natural-number codes. -/
abbrev Gene := ℕ

/-- One gene module: the `Module` index label together with its gene set
(`network.PARSERS` parses the `Node List` column into the gene list;
`analyse` converts each list to a Python `set`). -/
structure GeneModule where
  id : ℕ
  genes : Finset Gene
deriving DecidableEq

/-- A cluster data series: the ordered collection of gene modules of one
cohort (a pandas `Series` indexed by `Module`). -/
abbrev Cluster := List GeneModule

/-- `constants.BACKGROUND_GENE_CNT`: the Reactome FI network gene size. -/
def BACKGROUND_GENE_CNT : ℕ := 12283

/-- scipy `hypergeom.pmf(j, M, n, N)` as an exact rational:
`C(n, j) * C(M - n, N - j) / C(M, N)`.  (Used only for `j ≤ N`, where
truncated subtraction agrees with the mathematical formula.) -/
def hypergeomPMF (M n N j : ℕ) : ℚ :=
  ((n.choose j : ℚ) * ((M - n).choose (N - j) : ℚ)) / (M.choose N : ℚ)

/-- scipy `hypergeom.sf(k, M, n, N) = P(X > k)` for the hypergeometric
distribution with population `M`, `n` success items and `N` draws.  The
support of `X` is contained in `[0, N]`, so summing `j` over
`Finset.range (N + 1)` captures the whole upper tail.  `k` is an integer
because `_overlap_pvalue` passes `len(overlap) - 1`, which is `-1` for an
empty overlap. -/
def hypergeomSF (M n N : ℕ) (k : ℤ) : ℚ :=
  ∑ j ∈ Finset.range (N + 1), if k < (j : ℤ) then hypergeomPMF M n N j else 0

/-- `overlap._overlap_pvalue(N, overlap, gs1, gs2)`: the hypergeometric
survival function at `k = len(overlap) - 1` with population `N`,
`n1 = len(gs1)` success items and `n2 = len(gs2)` draws. -/
def overlapPvalue (N : ℕ) (overlap gs1 gs2 : Finset Gene) : ℚ :=
  hypergeomSF N gs1.card gs2.card ((overlap.card : ℤ) - 1)

/-- One pairing of a cohort-A module with a cohort-B module together with
their gene-set intersection (one entry of the `intersections` series built
by `analyse`). -/
structure OverlapPair where
  mA : GeneModule
  mB : GeneModule
  shared : Finset Gene
deriving DecidableEq

/-- The row-major pairwise intersections of `analyse`:
`[gs1.intersection(gs2) for gs1 in genesets[0] for gs2 in genesets[1]]`,
keyed by `MultiIndex.from_product` in the same row-major order. -/
def overlapPairs (A B : Cluster) : List OverlapPair :=
  A.flatMap (fun a => B.map (fun b => ⟨a, b, a.genes ∩ b.genes⟩))

/-- The `filtered` series of `analyse`: the pairs whose intersection is
non-empty (`intersections.apply(len).gt(0)`). -/
def retainedPairs (A B : Cluster) : List OverlapPair :=
  (overlapPairs A B).filter (fun p => 0 < p.shared.card)

/-- One row of the overlap data frame returned by `analyse`: the
multi-index key, the `Shared` gene set, the raw `p-value` and the
corrected `FDR`. -/
structure OverlapRecord where
  idA : ℕ
  idB : ℕ
  shared : Finset Gene
  pvalue : ℚ
  fdr : ℚ
deriving DecidableEq

/-- `pvals_corrected_raw = pvals_sorted / ecdffactor` of statsmodels
`fdrcorrection`: position `k` of the sorted list (0-based, started at
offset `j`) is divided by `(j + k + 1) / m`. -/
def bhRawAux (m : ℕ) : ℕ → List ℚ → List ℚ
  | _, [] => []
  | j, p :: rest => p * m / (j + 1) :: bhRawAux m (j + 1) rest

/-- `np.minimum.accumulate(xs[::-1])[::-1]`: position `k` of the result is
the minimum of positions `k, k+1, ...` of the input (each entry is the
minimum of the current value and the accumulated suffix head; on the last
entry the head default leaves the value unchanged). -/
def suffixMins : List ℚ → List ℚ
  | [] => []
  | p :: rest => min p ((suffixMins rest).headD p) :: suffixMins rest

/-- The Benjamini-Hochberg corrected values for an already ascending-sorted
p-value list of an `m`-test family: raw corrected values, reverse running
minimum, then the clip `pvals_corrected[pvals_corrected > 1] = 1`. -/
def bhSorted (m : ℕ) (sorted : List ℚ) : List ℚ :=
  (suffixMins (bhRawAux m 0 sorted)).map (fun q => min q 1)

/-- The comparison used to argsort `(index, p-value)` pairs by p-value. -/
def pairLE (a b : ℕ × ℚ) : Prop := a.2 ≤ b.2

instance : DecidableRel pairLE := fun a b => inferInstanceAs (Decidable (a.2 ≤ b.2))

instance : IsTotal (ℕ × ℚ) pairLE := ⟨fun a b => le_total a.2 b.2⟩

instance : IsTrans (ℕ × ℚ) pairLE := ⟨fun _ _ _ h1 h2 => le_trans h1 h2⟩

/-- The corrected values computed by statsmodels for a non-empty p-value
array (the `fdrcorrection` worker of `multipletests(..., method='fdr_bh')`):
argsort the p-values, divide by the ECDF factor, take the reverse running
minimum, clip at 1, and scatter back to the original positions
(`pvals_corrected_[sortind] = pvals_corrected`). -/
def fdrcorrection (ps : List ℚ) : List ℚ :=
  let m := ps.length
  let sortedPairs := List.insertionSort pairLE ps.enum
  let qs := bhSorted m (sortedPairs.map (fun x => x.2))
  (List.range m).map (fun i => qs.getD (List.indexOf i (sortedPairs.map (fun x => x.1))) 1)

/-- statsmodels `multipletests(pvals, method='fdr_bh')`: before any method
dispatch it computes `1. / ntests` with `ntests = len(pvals)`, so an empty
p-value array raises `ZeroDivisionError`; on a non-empty array the second
return value is the corrected values. -/
def fdrBH (ps : List ℚ) : Except String (List ℚ) :=
  if ps.isEmpty then .error "ZeroDivisionError" else .ok (fdrcorrection ps)

/-- `overlap.analyse(clusters, n=None)` default handling:
`if not n: n = BACKGROUND_GENE_CNT` (both `None` and `0` are falsy). -/
def backgroundCount : Option ℕ → ℕ
  | none => BACKGROUND_GENE_CNT
  | some k => if k = 0 then BACKGROUND_GENE_CNT else k

/-- The `pvalues` series of `analyse`: one `_overlap_pvalue(n, *row.values)`
per retained pair, where the row values are the `Shared` intersection and
the pair's two gene sets (the join by the unique module labels recovers
each pair's own two gene sets). -/
def analysePvals (A B : Cluster) (N : ℕ) : List ℚ :=
  (retainedPairs A B).map (fun p => overlapPvalue N p.shared p.mA.genes p.mB.genes)

/-- `overlap.analyse(clusters, n)` for a two-cohort cluster collection:
pairwise intersections in row-major order, empty intersections dropped,
one hypergeometric p-value per retained pair, Benjamini-Hochberg FDR
across all retained pairs of the call (an empty retained set makes
`multipletests` raise `ZeroDivisionError`), and the assembled rows
`(key, Shared, p-value, FDR)`. -/
def analyse (A B : Cluster) (n : Option ℕ) : Except String (List OverlapRecord) :=
  let ps := retainedPairs A B
  let pvals := analysePvals A B (backgroundCount n)
  match fdrBH pvals with
  | .error e => .error e
  | .ok fdrs =>
    .ok ((ps.zip (pvals.zip fdrs)).map
      (fun x => ⟨x.1.mA.id, x.1.mB.id, x.1.shared, x.2.1, x.2.2⟩))

instance : Inhabited GeneModule := ⟨⟨0, ∅⟩⟩

instance : Inhabited OverlapPair := ⟨⟨⟨0, ∅⟩, ⟨0, ∅⟩, ∅⟩⟩

/-- `multi_index.get_level_values(level)` for the two-level overlap key. -/
def levelValue (level : ℕ) (key : ℕ × ℕ) : ℕ :=
  if level = 0 then key.1 else key.2

/-- `overlap._difference(cluster, multi_index, level)`:
`cluster[cluster.index.difference(shared)]` where `shared` is the level's
label set.  pandas `Index.difference` returns the surviving labels sorted
ascending and deduplicated; the selection then reads the cluster rows in
that label order. -/
def _difference (cluster : Cluster) (keys : List (ℕ × ℕ)) (level : ℕ) : Cluster :=
  let sharedIds := keys.map (levelValue level)
  let diff := List.insertionSort (· ≤ ·)
    (((cluster.map (fun m => m.id)).filter (fun i => decide (i ∉ sharedIds))).dedup)
  diff.flatMap (fun i => cluster.filter (fun m => decide (m.id = i)))

/-- `overlap.unshared(clusters, shared)`: per cohort, the modules whose
label never occurs in the corresponding level of the shared table's keys. -/
def unshared (clusters : List Cluster) (shared : List OverlapRecord) : List Cluster :=
  (clusters.enum).map
    (fun ic => _difference ic.2 (shared.map (fun r => (r.idA, r.idB))) ic.1)

/-- The comparison of the `network.cluster` sort step: descending gene-set
size (`sizes.sort_values(ascending=False)`). -/
def sizeGE (a b : GeneModule) : Prop := b.genes.card ≤ a.genes.card

instance : DecidableRel sizeGE := fun a b => inferInstanceAs (Decidable (b.genes.card ≤ a.genes.card))

instance : IsTotal GeneModule sizeGE := ⟨fun a b => le_total b.genes.card a.genes.card⟩

instance : IsTrans GeneModule sizeGE := ⟨fun _ _ _ h1 h2 => le_trans h2 h1⟩

/-- The final sort of `network.cluster`: order the parsed gene-set series
by descending module size
(`sizes = genesets.apply(len).sort_values(ascending=False)` followed by
`genesets.reindex(sizes.index)`). -/
def clusterSort (genesets : Cluster) : Cluster :=
  List.insertionSort sizeGE genesets

/-- `network.limit_module_size(cluster, cutoff)`:
`cluster.loc[cluster.apply(len).ge(cutoff)]`. -/
def limit_module_size (cluster : Cluster) (cutoff : ℕ) : Cluster :=
  cluster.filter (fun m => decide (cutoff ≤ m.genes.card))

/-- A cell value of a tabular CyREST response. -/
inductive Value where
  | str : String → Value
  | int : ℤ → Value
  | float : ℚ → Value
  | list : List String → Value
deriving DecidableEq

/-- A per-column cell-parsing function.  A Python parser either returns a
value or raises; the `Except` error carries the raised exception's own
message. -/
abbrev CellFn := Value → Except String Value

/-- The default "parser" of `parse_fi_table_response`:
`identity = lambda value: value`. -/
def identityFn : CellFn := fun v => .ok v

/-- The `data` payload of a CyREST Reactome FI response, when present:
the `tableHeaders` and `tableContent` properties. -/
structure TableData where
  tableHeaders : List String
  tableContent : List (List Value)

/-- A CyREST response: a falsy `data` payload ("no data") is `none`. -/
structure Response where
  data : Option TableData

/-- The parsed data frame.  `columns` records every column passed to
`pd.DataFrame.from_records`; `index` names the column that becomes the
frame's index (that column's data stays part of the table). -/
structure Table where
  columns : List String
  index : Option String
  rows : List (List Value)
deriving DecidableEq

/-- `parsers_list = [parsers.get(col, identity) for col in columns]`. -/
def columnFns (columns : List String) (parsers : List (String × CellFn)) : List CellFn :=
  columns.map (fun col => (parsers.lookup col).getD identityFn)

/-- `parse_row`: apply the column functions to the cells left to right;
the first raising cell aborts the row with its own error.  A row longer
than the parser list raises `IndexError` (`parsers_list[i]`). -/
def parseRow : List CellFn → List Value → Except String (List Value)
  | _, [] => .ok []
  | [], _ :: _ => .error "IndexError"
  | f :: fs, v :: vs =>
    match f v with
    | .error e => .error e
    | .ok w =>
      match parseRow fs vs with
      | .error e => .error e
      | .ok ws => .ok (w :: ws)

/-- `map(parse_row, data['tableContent'])` as consumed row by row by
`pd.DataFrame.from_records`: the first raising row aborts the whole parse
with that row's error. -/
def parseRows (fns : List CellFn) : List (List Value) → Except String (List (List Value))
  | [] => .ok []
  | row :: rest =>
    match parseRow fns row with
    | .error e => .error e
    | .ok r =>
      match parseRows fns rest with
      | .error e => .error e
      | .ok rs => .ok (r :: rs)

/-- `rest.parse_fi_table_response(resp, parsers, index=None)`: with a falsy
`data` payload the columns are the parser mapping's keys and the content is
empty; otherwise the columns are `tableHeaders` and every content row is
parsed cell by cell. -/
def parse_fi_table_response (resp : Response) (parsers : List (String × CellFn))
    (index : Option String) : Except String Table :=
  match resp.data with
  | none => .ok { columns := parsers.map (fun kv => kv.1), index := index, rows := [] }
  | some data =>
    let columns := data.tableHeaders
    match parseRows (columnFns columns parsers) data.tableContent with
    | .error e => .error e
    | .ok rows => .ok { columns := columns, index := index, rows := rows }

/-- Models the Python builtin `float` used as a cell parser in
`enrichment.PARSERS`: numeric input converts, non-numeric text raises
`could not convert string to float`. -/
def floatCell : CellFn := fun v =>
  match v with
  | .float q => .ok (.float q)
  | .int z => .ok (.float (z : ℚ))
  | .str s => .error ("could not convert string to float: " ++ s)
  | .list _ => .error "float() argument must be a string or a number"

/-- `re` word characters (`\w`), over the ASCII pathway names at hand. -/
def isWordChar (c : Char) : Bool := c.isAlphanum || c = '_'

/-- `re.split('[^\\w]+', pathway)` followed by dropping the empty pieces
(`for word in separator.split(pathway) if word`): the maximal runs of word
characters, via a reversed-run accumulator. -/
def wordRunsAux : List Char → List Char → List (List Char)
  | [], acc => if acc.isEmpty then [] else [acc.reverse]
  | c :: cs, acc =>
    if isWordChar c then wordRunsAux cs (c :: acc)
    else if acc.isEmpty then wordRunsAux cs [] else acc.reverse :: wordRunsAux cs []

/-- The non-empty word pieces of a pathway name. -/
def wordRuns (l : List Char) : List (List Char) := wordRunsAux l []

/-- `word[0].upper() + word[1:]`. -/
def capitalizeWord : List Char → List Char
  | [] => []
  | c :: cs => c.toUpper :: cs

/-- The base-name derivation of `export_diagram` (`diagram.py` and
`enrichment.py`): capitalize each word piece, concatenate, and append
`.pdf`.  (`os.path.join(out_dir, ...)` then prefixes the target
directory.) -/
def diagramFileName (pathway : String) : String :=
  String.mk (((wordRuns pathway.data).map capitalizeWord).flatten) ++ ".pdf"

theorem mem_retainedPairs {A B : Cluster} {p : OverlapPair} :
    p ∈ retainedPairs A B ↔ p ∈ overlapPairs A B ∧ 0 < p.shared.card := by
  simp [retainedPairs]

theorem overlapPairs_fields {A B : Cluster} {p : OverlapPair} (h : p ∈ overlapPairs A B) :
    p.mA ∈ A ∧ p.mB ∈ B ∧ p.shared = p.mA.genes ∩ p.mB.genes := by
  simp only [overlapPairs, List.mem_flatMap, List.mem_map] at h
  obtain ⟨a, ha, b, hb, rfl⟩ := h
  exact ⟨ha, hb, rfl⟩

theorem fdrcorrection_length (ps : List ℚ) : (fdrcorrection ps).length = ps.length := by
  simp [fdrcorrection]

theorem analysePvals_length (A B : Cluster) (N : ℕ) :
    (analysePvals A B N).length = (retainedPairs A B).length :=
  List.length_map _ _

/-- A successful `analyse` result is the zipped assembly over the retained
pairs with the `fdrcorrection` values (success means the p-value list was
non-empty, so `multipletests` did not raise). -/
theorem analyse_ok_elim {A B : Cluster} {n : Option ℕ} {recs : List OverlapRecord}
    (hok : analyse A B n = .ok recs) :
    recs = ((retainedPairs A B).zip
        ((analysePvals A B (backgroundCount n)).zip
          (fdrcorrection (analysePvals A B (backgroundCount n))))).map
        (fun x => ⟨x.1.mA.id, x.1.mB.id, x.1.shared, x.2.1, x.2.2⟩) := by
  cases hemp : (analysePvals A B (backgroundCount n)).isEmpty with
  | true => simp [analyse, fdrBH, hemp] at hok
  | false =>
    simp only [analyse, fdrBH, hemp, Bool.false_eq_true, if_false, Except.ok.injEq] at hok
    exact hok.symm

/-- The rows of a successful `analyse` component-wise: the `t`-th record
carries the `t`-th retained pair's key and intersection, the `t`-th raw
p-value and the `t`-th corrected value. -/
theorem analyse_mem_elim {A B : Cluster} {n : Option ℕ} {recs : List OverlapRecord}
    {r : OverlapRecord} (hok : analyse A B n = .ok recs) (h : r ∈ recs) :
    ∃ t, t < (retainedPairs A B).length ∧
      r.idA = ((retainedPairs A B).getD t default).mA.id ∧
      r.idB = ((retainedPairs A B).getD t default).mB.id ∧
      r.shared = ((retainedPairs A B).getD t default).shared ∧
      r.pvalue = (analysePvals A B (backgroundCount n)).getD t 0 ∧
      r.fdr = (fdrcorrection (analysePvals A B (backgroundCount n))).getD t 0 := by
  rw [analyse_ok_elim hok, List.mem_iff_getElem] at h
  obtain ⟨t, ht, hr⟩ := h
  have hlen1 : (analysePvals A B (backgroundCount n)).length = (retainedPairs A B).length :=
    analysePvals_length A B _
  have hlen2 : (fdrcorrection (analysePvals A B (backgroundCount n))).length
      = (analysePvals A B (backgroundCount n)).length := fdrcorrection_length _
  have hm : t < (retainedPairs A B).length := by
    simp only [List.length_map, List.length_zip, hlen1, hlen2] at ht
    omega
  have hm1 : t < (analysePvals A B (backgroundCount n)).length := by omega
  have hm2 : t < (fdrcorrection (analysePvals A B (backgroundCount n))).length := by omega
  refine ⟨t, hm, ?_⟩
  simp only [List.getElem_map, List.getElem_zip] at hr
  rw [List.getD_eq_getElem _ _ hm, List.getD_eq_getElem _ _ hm1, List.getD_eq_getElem _ _ hm2]
  rw [← hr]
  exact ⟨rfl, rfl, rfl, rfl, rfl⟩

/-- C1: every record retained by `analyse` carries the hypergeometric
survival function evaluated at `k = |intersection| - 1` with population
`backgroundCount n` (default 12283), `n1 = |gene set of the A-module|`
success items and `n2 = |gene set of the B-module|` draws; the p-value is
the shifted tail `P(X > |intersection| - 1)`, which differs from the
unshifted `P(X > |intersection|)`. -/
theorem analyse_pvalue_shifted_hypergeom :
    BACKGROUND_GENE_CNT = 12283 ∧
    backgroundCount none = 12283 ∧
    (∀ (A B : Cluster) (n : Option ℕ) (recs : List OverlapRecord) (r : OverlapRecord),
      analyse A B n = .ok recs → r ∈ recs →
      ∃ p ∈ retainedPairs A B,
        r.idA = p.mA.id ∧ r.idB = p.mB.id ∧ r.shared = p.mA.genes ∩ p.mB.genes ∧
        r.shared.Nonempty ∧
        r.pvalue = hypergeomSF (backgroundCount n) p.mA.genes.card p.mB.genes.card
          ((r.shared.card : ℤ) - 1)) ∧
    overlapPvalue 10 {1, 2} {1, 2, 3} {1, 2, 4} = hypergeomSF 10 3 3 ((2 : ℤ) - 1) ∧
    overlapPvalue 10 {1, 2} {1, 2, 3} {1, 2, 4} ≠ hypergeomSF 10 3 3 2 := by
  have h1 : ({1, 2} : Finset ℕ).card = 2 := rfl
  have h2 : ({1, 2, 3} : Finset ℕ).card = 3 := rfl
  have h3 : ({1, 2, 4} : Finset ℕ).card = 3 := rfl
  have hcast : ((2 : ℕ) : ℤ) - 1 = (1 : ℤ) := by norm_num
  refine ⟨rfl, rfl, ?_, ?_, ?_⟩
  · intro A B n recs r hok h
    obtain ⟨t, hm, hidA, hidB, hsh, hpv, _⟩ := analyse_mem_elim hok h
    have hget : (retainedPairs A B).getD t default = (retainedPairs A B)[t] :=
      List.getD_eq_getElem _ _ hm
    rw [hget] at hidA hidB hsh
    have hmem : (retainedPairs A B)[t] ∈ retainedPairs A B := List.getElem_mem hm
    have hpair := mem_retainedPairs.mp hmem
    obtain ⟨_, _, hshared⟩ := overlapPairs_fields hpair.1
    refine ⟨(retainedPairs A B)[t], hmem, hidA, hidB, by rw [hsh, hshared], ?_, ?_⟩
    · rw [hsh]; exact Finset.card_pos.mp hpair.2
    · have hm1 : t < (analysePvals A B (backgroundCount n)).length := by
        rw [analysePvals_length]; exact hm
      rw [hpv, List.getD_eq_getElem _ _ hm1]
      have hmap : (analysePvals A B (backgroundCount n))[t]
          = overlapPvalue (backgroundCount n) ((retainedPairs A B)[t]).shared
              ((retainedPairs A B)[t]).mA.genes ((retainedPairs A B)[t]).mB.genes := by
        simp only [analysePvals, List.getElem_map]
      rw [hmap, hsh]
      rfl
  · simp only [overlapPvalue, h1, h2, h3]
    norm_num
  · simp only [overlapPvalue, h1, h2, h3, hcast]
    norm_num [hypergeomSF, hypergeomPMF, Finset.sum_range_succ, Nat.choose]

theorem ex_retained : retainedPairs [⟨0, {1, 2}⟩] [⟨3, {1, 4}⟩]
    = [⟨⟨0, {1, 2}⟩, ⟨3, {1, 4}⟩, {1}⟩] := by decide

theorem ex_pvals : analysePvals [⟨0, {1, 2}⟩] [⟨3, {1, 4}⟩] 10 = [17/45] := by
  rw [analysePvals, ex_retained]
  simp only [List.map_cons, List.map_nil]
  have hc : Nat.choose 10 2 = 45 := rfl
  norm_num [overlapPvalue, hypergeomSF, hypergeomPMF, Finset.sum_range_succ, hc]

theorem ex_fdr : fdrcorrection [17/45] = [17/45] := by
  have hr : List.range 1 = [0] := rfl
  simp [fdrcorrection, bhSorted, bhRawAux, suffixMins, List.insertionSort, List.orderedInsert,
    hr, List.indexOf_cons_self]
  norm_num

/-- The fully evaluated example analysis used by the witnesses: one
retained pair, a non-empty p-value list, a normal result. -/
theorem analyse_example :
    analyse [⟨0, {1, 2}⟩] [⟨3, {1, 4}⟩] (some 10) = .ok [⟨0, 3, {1}, 17/45, 17/45⟩] := by
  have hform : analyse [⟨0, {1, 2}⟩] [⟨3, {1, 4}⟩] (some 10)
      = match fdrBH (analysePvals [⟨0, {1, 2}⟩] [⟨3, {1, 4}⟩] 10) with
        | .error e => .error e
        | .ok fdrs =>
          .ok (((retainedPairs [⟨0, {1, 2}⟩] [⟨3, {1, 4}⟩]).zip
              ((analysePvals [⟨0, {1, 2}⟩] [⟨3, {1, 4}⟩] 10).zip fdrs)).map
            (fun x => ⟨x.1.mA.id, x.1.mB.id, x.1.shared, x.2.1, x.2.2⟩)) := rfl
  have hf : fdrBH [(17 : ℚ)/45] = .ok [17/45] := by
    simp [fdrBH, ex_fdr]
  rw [hform, ex_pvals, hf, ex_retained]
  rfl

/-- C1 witness: a concrete two-module analysis, its single record. -/
theorem analyse_pvalue_shifted_hypergeom_witness :
    ∃ p ∈ retainedPairs [⟨0, {1, 2}⟩] [⟨3, {1, 4}⟩],
      (⟨0, 3, {1}, 17/45, 17/45⟩ : OverlapRecord).idA = p.mA.id ∧
      (⟨0, 3, {1}, 17/45, 17/45⟩ : OverlapRecord).idB = p.mB.id ∧
      (⟨0, 3, {1}, 17/45, 17/45⟩ : OverlapRecord).shared = p.mA.genes ∩ p.mB.genes ∧
      (⟨0, 3, {1}, 17/45, 17/45⟩ : OverlapRecord).shared.Nonempty ∧
      (⟨0, 3, {1}, 17/45, 17/45⟩ : OverlapRecord).pvalue
        = hypergeomSF (backgroundCount (some 10)) p.mA.genes.card p.mB.genes.card
          (((⟨0, 3, {1}, 17/45, 17/45⟩ : OverlapRecord).shared.card : ℤ) - 1) :=
  analyse_pvalue_shifted_hypergeom.2.2.1 [⟨0, {1, 2}⟩] [⟨3, {1, 4}⟩] (some 10)
    [⟨0, 3, {1}, 17/45, 17/45⟩] ⟨0, 3, {1}, 17/45, 17/45⟩ analyse_example
    (List.mem_singleton.mpr rfl)

theorem zip_map_left {α β γ : Type _} (g : α → γ) :
    ∀ (l : List α) (l2 : List β), l.length ≤ l2.length →
      (l.zip l2).map (fun x => g x.1) = l.map g := by
  intro l
  induction l with
  | nil => intro l2 _; rfl
  | cons a l ih =>
    intro l2 h
    cases l2 with
    | nil => simp at h
    | cons b l2 =>
      have hih := ih l2 (by simpa using h)
      simp only [List.zip_cons_cons, List.map_cons, hih]

/-- Every call whose retained-pair set is empty hits the
`ZeroDivisionError` of `multipletests` on the empty p-value list. -/
theorem analyse_empty_retained_raises {A B : Cluster} {n : Option ℕ}
    (hret : retainedPairs A B = []) :
    analyse A B n = .error "ZeroDivisionError" := by
  have hpv : analysePvals A B (backgroundCount n) = [] := by
    unfold analysePvals
    rw [hret]
    rfl
  have hemp : (analysePvals A B (backgroundCount n)).isEmpty = true := by
    rw [hpv]
    rfl
  simp [analyse, fdrBH, hemp]

/-- C3 amended: a successful `analyse` result holds exactly the
non-empty-intersection pairs, in order, one record per such pair and none
for an empty intersection; but when every pairwise intersection is empty
the call does not return an empty table — the empty p-value list makes
the `multipletests` FDR step raise `ZeroDivisionError`. -/
theorem analyse_exactly_nonempty_pairs :
    (∀ (A B : Cluster) (n : Option ℕ) (recs : List OverlapRecord),
      analyse A B n = .ok recs →
      recs.map (fun r => (r.idA, r.idB, r.shared))
        = ((overlapPairs A B).filter (fun p => decide p.shared.Nonempty)).map
            (fun p => (p.mA.id, p.mB.id, p.shared))) ∧
    (∀ (A B : Cluster) (n : Option ℕ),
      (∀ p ∈ overlapPairs A B, p.shared = ∅) →
      analyse A B n = .error "ZeroDivisionError") := by
  constructor
  · intro A B n recs hok
    have hlen : (retainedPairs A B).length
        ≤ ((analysePvals A B (backgroundCount n)).zip
            (fdrcorrection (analysePvals A B (backgroundCount n)))).length := by
      rw [List.length_zip, fdrcorrection_length, analysePvals_length]
      simp
    have hfil : retainedPairs A B
        = (overlapPairs A B).filter (fun p => decide p.shared.Nonempty) := by
      unfold retainedPairs
      exact List.filter_congr (fun p _ => by simp [Finset.card_pos])
    rw [analyse_ok_elim hok, List.map_map]
    have := zip_map_left (fun p : OverlapPair => (p.mA.id, p.mB.id, p.shared))
      (retainedPairs A B)
      ((analysePvals A B (backgroundCount n)).zip
        (fdrcorrection (analysePvals A B (backgroundCount n)))) hlen
    rw [← hfil]
    exact this
  · intro A B n h
    refine analyse_empty_retained_raises ?_
    unfold retainedPairs
    rw [List.filter_eq_nil_iff]
    intro p hp
    simp [h p hp]

/-- C3 counterexample: two non-empty collections whose only pairwise
intersection is empty — `analyse` raises `ZeroDivisionError` (the empty
p-value list reaches `multipletests`) instead of returning an empty table
normally. -/
theorem analyse_all_empty_raises :
    analyse [⟨0, {1}⟩] [⟨2, {3}⟩] none = .error "ZeroDivisionError" := rfl

/-- C3 witness: a non-degenerate successful call and an all-empty call
that raises. -/
theorem analyse_exactly_nonempty_pairs_witness :
    (([⟨0, 3, {1}, 17/45, 17/45⟩] : List OverlapRecord).map
        (fun r => (r.idA, r.idB, r.shared))
      = ((overlapPairs [⟨0, {1, 2}⟩] [⟨3, {1, 4}⟩]).filter
          (fun p => decide p.shared.Nonempty)).map
          (fun p => (p.mA.id, p.mB.id, p.shared))) ∧
    analyse [⟨1, {5}⟩] [⟨2, {7}⟩] none = .error "ZeroDivisionError" :=
  ⟨analyse_exactly_nonempty_pairs.1 [⟨0, {1, 2}⟩] [⟨3, {1, 4}⟩] (some 10)
      [⟨0, 3, {1}, 17/45, 17/45⟩] analyse_example,
   analyse_exactly_nonempty_pairs.2 [⟨1, {5}⟩] [⟨2, {7}⟩] none (by decide)⟩

/-- C4 counterexample: `analyse` called with an empty module collection
does not fail with an `InvalidInput` error — no such check or error
exists; the empty p-value list makes the `multipletests` FDR step raise
`ZeroDivisionError`, an unrelated exception. -/
theorem analyse_empty_input_zero_division :
    analyse [] [⟨0, {1}⟩] none = .error "ZeroDivisionError" ∧
    analyse [⟨0, {1}⟩] [] none = .error "ZeroDivisionError" ∧
    "ZeroDivisionError" ≠ "InvalidInput" := ⟨rfl, rfl, by decide⟩

/-- C4 amended: `analyse` performs no non-emptiness precondition check
and no `InvalidInput` error exists in the code; with an empty input
collection on either side the empty p-value list makes the
`multipletests` FDR step fail with `ZeroDivisionError`. -/
theorem analyse_no_emptiness_check :
    ∀ (n : Option ℕ),
      (∀ B : Cluster, analyse [] B n = .error "ZeroDivisionError") ∧
      (∀ A : Cluster, analyse A [] n = .error "ZeroDivisionError") := by
  intro n
  constructor
  · intro B
    exact analyse_empty_retained_raises rfl
  · intro A
    refine analyse_empty_retained_raises ?_
    have hpairs : overlapPairs A [] = [] := by
      unfold overlapPairs
      simp
    unfold retainedPairs
    rw [hpairs]
    rfl

theorem mem_difference {c : Cluster} {keys : List (ℕ × ℕ)} {lvl : ℕ} {m : GeneModule} :
    m ∈ _difference c keys lvl ↔ m ∈ c ∧ m.id ∉ keys.map (levelValue lvl) := by
  unfold _difference
  simp only [List.mem_flatMap, List.mem_insertionSort, List.mem_dedup, List.mem_filter,
    List.mem_map, decide_eq_true_eq]
  constructor
  · rintro ⟨i, ⟨⟨mm, _, rfl⟩, hnot⟩, hm, hid⟩
    exact ⟨hm, by rw [hid]; exact hnot⟩
  · rintro ⟨hm, hnot⟩
    exact ⟨m.id, ⟨⟨m, hm, rfl⟩, hnot⟩, hm, rfl⟩

/-- C5: against any shared overlap table, each module of each input
collection either has its identifier as the corresponding key component
of some shared record, or belongs to its cohort's `unshared` result —
exactly one of the two. -/
theorem unshared_partition_complete :
    ∀ (A B : Cluster) (recs : List OverlapRecord) (m : GeneModule),
      (m ∈ A →
        ((∃ r ∈ recs, r.idA = m.id) ↔ m ∉ (unshared [A, B] recs).getD 0 [])) ∧
      (m ∈ B →
        ((∃ r ∈ recs, r.idB = m.id) ↔ m ∉ (unshared [A, B] recs).getD 1 [])) := by
  intro A B recs m
  have h0 : (unshared [A, B] recs).getD 0 []
      = _difference A (recs.map (fun r => (r.idA, r.idB))) 0 := rfl
  have h1 : (unshared [A, B] recs).getD 1 []
      = _difference B (recs.map (fun r => (r.idA, r.idB))) 1 := rfl
  have hkeys0 : (recs.map (fun r => (r.idA, r.idB))).map (levelValue 0)
      = recs.map (fun r => r.idA) := by
    rw [List.map_map]; rfl
  have hkeys1 : (recs.map (fun r => (r.idA, r.idB))).map (levelValue 1)
      = recs.map (fun r => r.idB) := by
    rw [List.map_map]; rfl
  constructor
  · intro hm
    rw [h0, mem_difference, hkeys0]
    simp only [List.mem_map, not_and, not_not]
    constructor
    · intro hex hmem
      exact hex
    · intro himp
      exact himp hm
  · intro hm
    rw [h1, mem_difference, hkeys1]
    simp only [List.mem_map, not_and, not_not]
    constructor
    · intro hex _
      exact hex
    · intro himp
      exact himp hm

/-- C5 witness: one shared record, one matching and one unmatched
module. -/
theorem unshared_partition_complete_witness :
    ((∃ r ∈ [(⟨0, 2, {9}, 1, 1⟩ : OverlapRecord)], r.idA = 0) ↔
      (⟨0, {1}⟩ : GeneModule)
        ∉ (unshared [[⟨0, {1}⟩], [⟨2, {3}⟩]] [⟨0, 2, {9}, 1, 1⟩]).getD 0 []) ∧
    ((∃ r ∈ [(⟨0, 2, {9}, 1, 1⟩ : OverlapRecord)], r.idB = 2) ↔
      (⟨2, {3}⟩ : GeneModule)
        ∉ (unshared [[⟨0, {1}⟩], [⟨2, {3}⟩]] [⟨0, 2, {9}, 1, 1⟩]).getD 1 []) :=
  ⟨(unshared_partition_complete [⟨0, {1}⟩] [⟨2, {3}⟩] [⟨0, 2, {9}, 1, 1⟩] ⟨0, {1}⟩).1
      (by decide),
   (unshared_partition_complete [⟨0, {1}⟩] [⟨2, {3}⟩] [⟨0, 2, {9}, 1, 1⟩] ⟨2, {3}⟩).2
      (by decide)⟩

theorem hypergeomPMF_nonneg (M n N j : ℕ) : 0 ≤ hypergeomPMF M n N j := by
  unfold hypergeomPMF
  positivity

theorem hypergeomSF_anti (M n N : ℕ) {k1 k2 : ℤ} (h : k1 ≤ k2) :
    hypergeomSF M n N k2 ≤ hypergeomSF M n N k1 := by
  unfold hypergeomSF
  refine Finset.sum_le_sum ?_
  intro j _
  by_cases hj : k2 < (j : ℤ)
  · rw [if_pos hj, if_pos (lt_of_le_of_lt h hj)]
  · rw [if_neg hj]
    by_cases hj1 : k1 < (j : ℤ)
    · rw [if_pos hj1]
      exact hypergeomPMF_nonneg M n N j
    · rw [if_neg hj1]

/-- C6: holding the two gene-set sizes and the background size fixed, the
p-value of `_overlap_pvalue` never decreases when the overlap shrinks. -/
theorem overlapPvalue_antitone :
    ∀ (N : ℕ) (gs1 gs2 ov1 ov2 : Finset Gene), ov2.card ≤ ov1.card →
      overlapPvalue N ov1 gs1 gs2 ≤ overlapPvalue N ov2 gs1 gs2 := by
  intro N gs1 gs2 ov1 ov2 h
  unfold overlapPvalue
  exact hypergeomSF_anti _ _ _ (by omega)

/-- C6 witness: a 2-gene overlap versus its 1-gene sub-overlap. -/
theorem overlapPvalue_antitone_witness :
    overlapPvalue 10 {1, 2} {1, 2, 3} {1, 2, 4} ≤ overlapPvalue 10 {1} {1, 2, 3} {1, 2, 4} :=
  overlapPvalue_antitone 10 {1, 2, 3} {1, 2, 4} {1, 2} {1} (by decide)

theorem pairwise_of_all {α : Type _} {R : α → α → Prop} (h : ∀ a b, R a b) :
    ∀ l : List α, l.Pairwise R := by
  intro l
  induction l with
  | nil => exact .nil
  | cons a l ih => exact .cons (fun b _ => h a b) ih

/-- C7 counterexample: a cluster ordered by descending gene-set size whose
module identifiers are not aligned with that order; `_difference` (the
worker of `unshared`) re-orders it by ascending identifier, so the
descending-size ordering is not preserved. -/
theorem unshared_breaks_size_order :
    List.Sorted sizeGE [⟨1, {0, 1, 2}⟩, ⟨0, {5}⟩] ∧
    ¬ List.Sorted sizeGE (_difference [⟨1, {0, 1, 2}⟩, ⟨0, {5}⟩] [] 0) := by
  decide

/-- C7 amended: `cluster` returns modules sorted by descending gene-set
size and `limit_module_size` preserves that order; `unshared` instead
returns each cohort's surviving modules in ascending module-identifier
order (pandas `Index.difference` sorts the labels), which coincides with
descending size only when identifiers were assigned in that order. -/
theorem ordering_invariants :
    (∀ l : Cluster, List.Sorted sizeGE (clusterSort l)) ∧
    (∀ (l : Cluster) (cutoff : ℕ), List.Sorted sizeGE l →
      List.Sorted sizeGE (limit_module_size l cutoff)) ∧
    (∀ (c : Cluster) (keys : List (ℕ × ℕ)) (lvl : ℕ),
      List.Pairwise (fun a b : GeneModule => a.id ≤ b.id) (_difference c keys lvl)) := by
  refine ⟨?_, ?_, ?_⟩
  · intro l
    exact List.sorted_insertionSort sizeGE l
  · intro l cutoff h
    exact h.filter _
  · intro c keys lvl
    have hform : _difference c keys lvl
        = (List.insertionSort (· ≤ ·)
            (((c.map (fun m => m.id)).filter
              (fun i => decide (i ∉ keys.map (levelValue lvl)))).dedup)).flatMap
            (fun i => c.filter (fun m => decide (m.id = i))) := rfl
    rw [hform, List.pairwise_flatMap]
    constructor
    · intro i _
      rw [List.pairwise_filter]
      exact pairwise_of_all (fun a b => fun ha hb => by omega) c
    · have hs : List.Sorted (· ≤ ·)
          (List.insertionSort (· ≤ ·)
            (((c.map (fun m => m.id)).filter
              (fun i => decide (i ∉ keys.map (levelValue lvl)))).dedup)) :=
        List.sorted_insertionSort _ _
      refine hs.imp ?_
      intro i j hij x hx y hy
      rw [List.mem_filter] at hx hy
      simp only [decide_eq_true_eq] at hx hy
      omega

/-- C7 witness: the three conclusions at concrete inputs; the
size-ordering hypothesis of the `limit_module_size` part is discharged on
a sorted input. -/
theorem ordering_invariants_witness :
    List.Sorted sizeGE (clusterSort [⟨0, {5}⟩, ⟨1, {0, 1, 2}⟩]) ∧
    List.Sorted sizeGE (limit_module_size [⟨1, {0, 1, 2}⟩, ⟨0, {5}⟩] 2) ∧
    List.Pairwise (fun a b : GeneModule => a.id ≤ b.id)
      (_difference [⟨1, {0, 1, 2}⟩, ⟨0, {5}⟩] [(1, 9)] 0) :=
  ⟨ordering_invariants.1 [⟨0, {5}⟩, ⟨1, {0, 1, 2}⟩],
   ordering_invariants.2.1 [⟨1, {0, 1, 2}⟩, ⟨0, {5}⟩] 2 (by decide),
   ordering_invariants.2.2 [⟨1, {0, 1, 2}⟩, ⟨0, {5}⟩] [(1, 9)] 0⟩

/-- C8: with a falsy `data` payload, `parse_fi_table_response` returns an
empty table whose columns are exactly the parser mapping's keys, for every
parsers dictionary. -/
theorem parse_no_data_stable_schema :
    ∀ (parsers : List (String × CellFn)) (index : Option String),
      parse_fi_table_response ⟨none⟩ parsers index
        = .ok ⟨parsers.map (fun kv => kv.1), index, []⟩ :=
  fun _ _ => rfl

theorem parseRow_error_from_cell {fns : List CellFn} {row : List Value} {e : String}
    (h : parseRow fns row = .error e) :
    (∃ f ∈ fns, ∃ v ∈ row, f v = .error e) ∨ e = "IndexError" := by
  induction fns generalizing row with
  | nil =>
    cases row with
    | nil => simp [parseRow] at h
    | cons v vs =>
      simp only [parseRow, Except.error.injEq] at h
      exact Or.inr h.symm
  | cons f fs ih =>
    cases row with
    | nil => simp [parseRow] at h
    | cons v vs =>
      simp only [parseRow] at h
      cases hfv : f v with
      | error e0 =>
        rw [hfv] at h
        simp only [Except.error.injEq] at h
        exact Or.inl ⟨f, List.mem_cons_self f fs, v, List.mem_cons_self v vs, by rw [hfv, h]⟩
      | ok w =>
        rw [hfv] at h
        simp only at h
        cases hrest : parseRow fs vs with
        | error e1 =>
          rw [hrest] at h
          simp only [Except.error.injEq] at h
          rcases ih (h ▸ hrest) with ⟨f1, hf1, v1, hv1, he⟩ | he
          · exact Or.inl ⟨f1, List.mem_cons_of_mem f hf1, v1, List.mem_cons_of_mem v hv1, he⟩
          · exact Or.inr he
        | ok ws =>
          rw [hrest] at h
          simp at h

theorem parseRows_first_error {fns : List CellFn} {rows : List (List Value)}
    {row : List Value} {e : String} (hrow : row ∈ rows)
    (h : parseRow fns row = .error e) :
    ∃ e2, parseRows fns rows = .error e2 ∧
      ∃ row2 ∈ rows, parseRow fns row2 = .error e2 := by
  induction rows with
  | nil => cases hrow
  | cons r rs ih =>
    cases hr : parseRow fns r with
    | error e0 =>
      refine ⟨e0, ?_, r, List.mem_cons_self r rs, hr⟩
      simp only [parseRows, hr]
    | ok v =>
      rcases List.mem_cons.mp hrow with rfl | hmem
      · rw [hr] at h
        simp at h
      · obtain ⟨e2, hrows, row2, hmem2, hrow2⟩ := ih hmem
        refine ⟨e2, ?_, row2, List.mem_cons_of_mem r hmem2, hrow2⟩
        simp only [parseRows, hr, hrows]

/-- C9 amended: a parser failing on a cell makes
`parse_fi_table_response` fail rather than coerce, and the reported error
is some failing row's own cell-parser error, propagated unchanged — it
carries no column or row index. -/
theorem parse_error_propagates :
    ∀ (parsers : List (String × CellFn)) (index : Option String) (d : TableData)
      (row : List Value) (e : String),
      row ∈ d.tableContent →
      parseRow (columnFns d.tableHeaders parsers) row = .error e →
      ∃ e2, parse_fi_table_response ⟨some d⟩ parsers index = .error e2 ∧
        ∃ row2 ∈ d.tableContent,
          parseRow (columnFns d.tableHeaders parsers) row2 = .error e2 ∧
          ((∃ f ∈ columnFns d.tableHeaders parsers, ∃ v ∈ row2, f v = .error e2) ∨
            e2 = "IndexError") := by
  intro parsers index d row e hrow h
  obtain ⟨e2, hrows, row2, hmem2, hrow2⟩ := parseRows_first_error hrow h
  refine ⟨e2, ?_, row2, hmem2, hrow2, parseRow_error_from_cell hrow2⟩
  simp only [parse_fi_table_response, hrows]

/-- C9 witness: a one-column response with a non-numeric cell. -/
theorem parse_error_propagates_witness :
    ∃ e2, parse_fi_table_response ⟨some ⟨["A"], [[.str "y"]]⟩⟩ [("A", floatCell)] none
        = .error e2 ∧
      ∃ row2 ∈ [[Value.str "y"]],
        parseRow (columnFns ["A"] [("A", floatCell)]) row2 = .error e2 ∧
        ((∃ f ∈ columnFns ["A"] [("A", floatCell)], ∃ v ∈ row2, f v = .error e2) ∨
          e2 = "IndexError") :=
  parse_error_propagates [("A", floatCell)] none ⟨["A"], [[.str "y"]]⟩ [.str "y"]
    "could not convert string to float: y" (by simp) rfl

/-- C9 counterexample: two responses failing at different cells — column
`A` of row 0 versus column `B` of row 1 — produce the very same error
value, so the error identifies neither the offending column nor the row
index. -/
theorem parse_error_lacks_position :
    parse_fi_table_response ⟨some ⟨["A", "B"], [[.str "x", .float 1]]⟩⟩
        [("A", floatCell), ("B", floatCell)] none
      = .error "could not convert string to float: x" ∧
    parse_fi_table_response ⟨some ⟨["A", "B"], [[.float 1, .float 2], [.float 1, .str "x"]]⟩⟩
        [("A", floatCell), ("B", floatCell)] none
      = .error "could not convert string to float: x" := ⟨rfl, rfl⟩

/-- C10: the diagram export file name is derived by splitting the pathway
name on non-word separators, capitalizing each piece, concatenating and
appending `.pdf`; on the pathway `DEK Binds TFAP2 Homodimers` this yields
exactly `DEKBindsTFAP2Homodimers.pdf`. -/
theorem export_diagram_file_name :
    diagramFileName "DEK Binds TFAP2 Homodimers" = "DEKBindsTFAP2Homodimers.pdf" := rfl

theorem bhRawAux_length (m : ℕ) : ∀ (j : ℕ) (l : List ℚ), (bhRawAux m j l).length = l.length := by
  intro j l
  induction l generalizing j with
  | nil => rfl
  | cons p rest ih => simp [bhRawAux, ih]

theorem suffixMins_length : ∀ l : List ℚ, (suffixMins l).length = l.length := by
  intro l
  induction l with
  | nil => rfl
  | cons p rest ih => simp [suffixMins, ih]

theorem suffixMins_getD_succ (p : ℚ) (rest : List ℚ) (k : ℕ) :
    (suffixMins (p :: rest)).getD (k + 1) 0 = (suffixMins rest).getD k 0 := rfl

theorem headD_eq_getD (l : List ℚ) (d : ℚ) (h : l ≠ []) : l.headD d = l.getD 0 0 := by
  cases l with
  | nil => exact absurd rfl h
  | cons a l => rfl

/-- The accumulate recurrence: before the last position, each suffix
minimum is the minimum of the current raw value and the next suffix
minimum. -/
theorem suffixMins_step : ∀ (l : List ℚ) (k : ℕ), k + 1 < l.length →
    (suffixMins l).getD k 0 = min (l.getD k 0) ((suffixMins l).getD (k + 1) 0) := by
  intro l
  induction l with
  | nil => intro k hk; simp at hk
  | cons p rest ih =>
    intro k hk
    cases k with
    | zero =>
      have hne : rest ≠ [] := by
        intro h
        rw [h] at hk
        simp at hk
      have hsne : suffixMins rest ≠ [] := by
        intro h
        have hl := suffixMins_length rest
        rw [h] at hl
        cases rest with
        | nil => exact hne rfl
        | cons r rest2 => simp at hl
      show min p ((suffixMins rest).headD p) = min p ((suffixMins rest).getD 0 0)
      rw [headD_eq_getD _ _ hsne]
    | succ k2 =>
      have hk2 : k2 + 1 < rest.length := by simpa using hk
      rw [suffixMins_getD_succ, suffixMins_getD_succ, ih k2 hk2]
      rfl

/-- At the last position the suffix minimum is the value itself. -/
theorem suffixMins_last : ∀ (l : List ℚ) (k : ℕ), k + 1 = l.length →
    (suffixMins l).getD k 0 = l.getD k 0 := by
  intro l
  induction l with
  | nil => intro k hk; simp at hk
  | cons p rest ih =>
    intro k hk
    cases k with
    | zero =>
      have : rest = [] := by
        cases rest with
        | nil => rfl
        | cons r rest2 => simp at hk
      subst this
      show min p ((suffixMins []).headD p) = p
      simp [suffixMins]
    | succ k2 =>
      rw [suffixMins_getD_succ, ih k2 (by simpa using hk)]
      rfl

theorem suffixMins_le_self (l : List ℚ) (k : ℕ) (hk : k < l.length) :
    (suffixMins l).getD k 0 ≤ l.getD k 0 := by
  rcases eq_or_lt_of_le (Nat.succ_le_of_lt hk) with heq | hlt
  · rw [suffixMins_last l k heq]
  · rw [suffixMins_step l k hlt]
    exact min_le_left _ _

/-- Each suffix minimum is attained at some position at or after its own. -/
theorem suffixMins_exists : ∀ (l : List ℚ) (k : ℕ), k < l.length →
    ∃ t, k ≤ t ∧ t < l.length ∧ (suffixMins l).getD k 0 = l.getD t 0 := by
  intro l
  induction l with
  | nil => intro k hk; simp at hk
  | cons p rest ih =>
    intro k hk
    cases k with
    | zero =>
      cases hrest : rest with
      | nil =>
        subst hrest
        exact ⟨0, le_refl 0, by simp, by show min p ((suffixMins []).headD p) = p; simp [suffixMins]⟩
      | cons r rest2 =>
        subst hrest
        have h1 : 0 + 1 < (p :: r :: rest2).length := by simp
        rw [suffixMins_step _ 0 h1]
        rcases le_total p ((suffixMins (p :: r :: rest2)).getD 1 0) with hle | hge
        · exact ⟨0, le_refl 0, hk, min_eq_left hle⟩
        · obtain ⟨t, ht0, htl, hte⟩ := ih 0 (by simp)
          refine ⟨t + 1, by omega, by simpa using htl, ?_⟩
          exact (min_eq_right hge).trans ((suffixMins_getD_succ p (r :: rest2) 0).trans hte)
    | succ k2 =>
      have hk2 : k2 < rest.length := by simpa using hk
      obtain ⟨t, ht0, htl, hte⟩ := ih k2 hk2
      refine ⟨t + 1, by omega, by simpa using htl, ?_⟩
      rw [suffixMins_getD_succ, hte]
      rfl

/-- Suffix minima are non-decreasing along the list. -/
theorem suffixMins_chain (l : List ℚ) (j k : ℕ) (hjk : j ≤ k) :
    k < l.length → (suffixMins l).getD j 0 ≤ (suffixMins l).getD k 0 := by
  induction k, hjk using Nat.le_induction with
  | base => intro _; exact le_refl _
  | succ n hn ih =>
    intro hk
    have hstep := suffixMins_step l n hk
    have h1 : (suffixMins l).getD j 0 ≤ (suffixMins l).getD n 0 := ih (by omega)
    have h2 : (suffixMins l).getD n 0 ≤ (suffixMins l).getD (n + 1) 0 := by
      rw [hstep]
      exact min_le_right _ _
    exact le_trans h1 h2

theorem bhRawAux_getD (m : ℕ) : ∀ (l : List ℚ) (j k : ℕ), k < l.length →
    (bhRawAux m j l).getD k 0 = l.getD k 0 * m / ((j : ℚ) + k + 1) := by
  intro l
  induction l with
  | nil => intro j k hk; simp at hk
  | cons p rest ih =>
    intro j k hk
    cases k with
    | zero =>
      show p * m / ((j : ℚ) + 1) = p * m / ((j : ℚ) + 0 + 1)
      norm_num
    | succ k2 =>
      have hk2 : k2 < rest.length := by simpa using hk
      have hpeel : (bhRawAux m j (p :: rest)).getD (k2 + 1) 0
          = (bhRawAux m (j + 1) rest).getD k2 0 := rfl
      have hpeel2 : (p :: rest).getD (k2 + 1) 0 = rest.getD k2 0 := rfl
      rw [hpeel, hpeel2, ih (j + 1) k2 hk2]
      push_cast
      ring_nf

theorem sorted_getD_mono {l : List ℚ} (h : List.Sorted (· ≤ ·) l) {i j : ℕ}
    (hij : i ≤ j) (hj : j < l.length) : l.getD i 0 ≤ l.getD j 0 := by
  rcases Nat.lt_or_ge i j with hlt | hge
  · have hi : i < l.length := lt_trans hlt hj
    rw [List.getD_eq_getElem _ _ hi, List.getD_eq_getElem _ _ hj]
    exact List.pairwise_iff_get.mp h ⟨i, hi⟩ ⟨j, hj⟩ hlt
  · have heq : i = j := le_antisymm hij hge
    rw [heq]

theorem getD_mem {l : List ℚ} {k : ℕ} (hk : k < l.length) : l.getD k 0 ∈ l := by
  rw [List.getD_eq_getElem _ _ hk]
  exact List.getElem_mem hk

theorem bhSorted_length (m : ℕ) (l : List ℚ) : (bhSorted m l).length = l.length := by
  simp [bhSorted, suffixMins_length, bhRawAux_length]

theorem bhSorted_getD (m : ℕ) (l : List ℚ) (k : ℕ) (hk : k < l.length) :
    (bhSorted m l).getD k 0 = min ((suffixMins (bhRawAux m 0 l)).getD k 0) 1 := by
  have h1 : k < (suffixMins (bhRawAux m 0 l)).length := by
    rw [suffixMins_length, bhRawAux_length]
    exact hk
  have h2 : k < (bhSorted m l).length := by
    rw [bhSorted_length]
    exact hk
  rw [List.getD_eq_getElem _ _ h2, List.getD_eq_getElem _ _ h1]
  simp only [bhSorted, List.getElem_map]

/-- Own p-value bounds its own Benjamini-Hochberg corrected value, in
sorted position. -/
theorem bhSorted_ge_self (m : ℕ) (vals : List ℚ) (hm : vals.length ≤ m)
    (h0 : ∀ v ∈ vals, 0 ≤ v) (hsort : List.Sorted (· ≤ ·) vals)
    (k : ℕ) (hk : k < vals.length) (hk1 : vals.getD k 0 ≤ 1) :
    vals.getD k 0 ≤ (bhSorted m vals).getD k 0 := by
  rw [bhSorted_getD m vals k hk]
  refine le_min ?_ hk1
  have hkr : k < (bhRawAux m 0 vals).length := by
    rw [bhRawAux_length]
    exact hk
  obtain ⟨t, hkt, htl, hte⟩ := suffixMins_exists _ k hkr
  rw [hte]
  have htv : t < vals.length := by
    rw [bhRawAux_length] at htl
    exact htl
  rw [bhRawAux_getD m vals 0 t htv]
  have h1 : vals.getD k 0 ≤ vals.getD t 0 := sorted_getD_mono hsort hkt htv
  have hv0 : (0 : ℚ) ≤ vals.getD t 0 := h0 _ (getD_mem htv)
  have hfrac : (1 : ℚ) ≤ (m : ℚ) / ((0 : ℚ) + t + 1) := by
    rw [one_le_div_iff]
    left
    constructor
    · positivity
    · have : (t : ℚ) + 1 ≤ (m : ℚ) := by
        exact_mod_cast Nat.succ_le_of_lt (lt_of_lt_of_le htv hm)
      linarith
  calc vals.getD k 0 ≤ vals.getD t 0 := h1
  _ = vals.getD t 0 * 1 := (mul_one _).symm
  _ ≤ vals.getD t 0 * ((m : ℚ) / ((0 : ℚ) + t + 1)) := mul_le_mul_of_nonneg_left hfrac hv0
  _ = vals.getD t 0 * m / ((0 : ℚ) + t + 1) := (mul_div_assoc _ _ _).symm

/-- Corrected values are non-decreasing along the sorted order. -/
theorem bhSorted_mono (m : ℕ) (vals : List ℚ) (j k : ℕ) (hjk : j ≤ k)
    (hk : k < vals.length) :
    (bhSorted m vals).getD j 0 ≤ (bhSorted m vals).getD k 0 := by
  have hj : j < vals.length := lt_of_le_of_lt hjk hk
  rw [bhSorted_getD m vals j hj, bhSorted_getD m vals k hk]
  have hchain := suffixMins_chain (bhRawAux m 0 vals) j k hjk
    (by rw [bhRawAux_length]; exact hk)
  exact min_le_min hchain (le_refl 1)

/-- Equal p-values (a tie block of the sorted list) receive equal
corrected values. -/
theorem bhSorted_congr (m : ℕ) (vals : List ℚ) (h0 : ∀ v ∈ vals, 0 ≤ v)
    (hsort : List.Sorted (· ≤ ·) vals) (j k : ℕ) (hjk : j ≤ k)
    (hk : k < vals.length) (heq : vals.getD j 0 = vals.getD k 0) :
    (bhSorted m vals).getD j 0 = (bhSorted m vals).getD k 0 := by
  have hsm : ∀ (d j2 : ℕ), j2 + d < vals.length →
      vals.getD j2 0 = vals.getD (j2 + d) 0 →
      (suffixMins (bhRawAux m 0 vals)).getD j2 0
        = (suffixMins (bhRawAux m 0 vals)).getD (j2 + d) 0 := by
    intro d
    induction d with
    | zero => intro j2 _ _; rfl
    | succ d2 ih =>
      intro j2 hj2 hveq
      have hj1 : j2 + 1 < vals.length := by omega
      have hmono1 : vals.getD j2 0 ≤ vals.getD (j2 + 1) 0 :=
        sorted_getD_mono hsort (by omega) hj1
      have hmono2 : vals.getD (j2 + 1) 0 ≤ vals.getD (j2 + (d2 + 1)) 0 :=
        sorted_getD_mono hsort (by omega) hj2
      have hv1 : vals.getD j2 0 = vals.getD (j2 + 1) 0 := by
        rw [hveq] at hmono1 ⊢
        exact le_antisymm (hveq ▸ hmono1) (hveq ▸ hmono2)
      have hstep := suffixMins_step (bhRawAux m 0 vals) j2
        (by rw [bhRawAux_length]; omega)
      have hih := ih (j2 + 1) (by omega) (by rw [← hv1, hveq]; congr 1; omega)
      have hle : (suffixMins (bhRawAux m 0 vals)).getD (j2 + 1) 0
          ≤ (bhRawAux m 0 vals).getD j2 0 := by
        have ha : (suffixMins (bhRawAux m 0 vals)).getD (j2 + 1) 0
            ≤ (bhRawAux m 0 vals).getD (j2 + 1) 0 :=
          suffixMins_le_self _ _ (by rw [bhRawAux_length]; omega)
        have hb := bhRawAux_getD m vals 0 (j2 + 1) hj1
        have hc := bhRawAux_getD m vals 0 j2 (by omega : j2 < vals.length)
        have hvnn : (0 : ℚ) ≤ vals.getD j2 0 := h0 _ (getD_mem (by omega))
        refine le_trans ha ?_
        rw [hb, hc, ← hv1, mul_div_assoc, mul_div_assoc]
        refine mul_le_mul_of_nonneg_left ?_ hvnn
        rw [div_le_div_iff₀ (by push_cast; positivity) (by push_cast; positivity)]
        push_cast
        have hmn : (0 : ℚ) ≤ (m : ℚ) := by positivity
        nlinarith
      rw [hstep]
      have hidx : j2 + 1 + d2 = j2 + (d2 + 1) := by omega
      rw [hidx] at hih
      rw [← hih]
      exact min_eq_right hle
  obtain ⟨d, rfl⟩ : ∃ d, k = j + d := ⟨k - j, by omega⟩
  rw [bhSorted_getD m vals j (lt_of_le_of_lt hjk hk), bhSorted_getD m vals _ hk,
    hsm d j hk heq]

theorem firsts_mem (ps : List ℚ) (i : ℕ) (hi : i < ps.length) :
    i ∈ (List.insertionSort pairLE ps.enum).map (fun x => x.1) := by
  have hperm := List.perm_insertionSort pairLE ps.enum
  have h1 : (i, ps[i]) ∈ ps.enum := by
    rw [List.mem_iff_getElem]
    refine ⟨i, by rw [List.enum_length]; exact hi, ?_⟩
    rw [List.getElem_enum]
  have h2 : i ∈ ps.enum.map (fun x => x.1) := List.mem_map.mpr ⟨(i, ps[i]), h1, rfl⟩
  exact ((hperm.map _).mem_iff).mpr h2

theorem sorted_vals_sorted (ps : List ℚ) :
    List.Sorted (· ≤ ·) ((List.insertionSort pairLE ps.enum).map (fun x => x.2)) :=
  List.Pairwise.map _ (fun _ _ hab => hab) (List.sorted_insertionSort pairLE ps.enum)

theorem sorted_vals_length (ps : List ℚ) :
    ((List.insertionSort pairLE ps.enum).map (fun x => x.2)).length = ps.length := by
  rw [List.length_map, (List.perm_insertionSort pairLE ps.enum).length_eq, List.enum_length]

theorem firsts_length (ps : List ℚ) :
    ((List.insertionSort pairLE ps.enum).map (fun x => x.1)).length = ps.length := by
  rw [List.length_map, (List.perm_insertionSort pairLE ps.enum).length_eq, List.enum_length]

theorem sorted_vals_mem (ps : List ℚ) (v : ℚ)
    (hv : v ∈ (List.insertionSort pairLE ps.enum).map (fun x => x.2)) : v ∈ ps := by
  have hperm := List.perm_insertionSort pairLE ps.enum
  have h1 : v ∈ ps.enum.map (fun x => x.2) := ((hperm.map _).mem_iff).mp hv
  have h2 : ps.enum.map (fun x => x.2) = ps := List.enum_map_snd ps
  rw [h2] at h1
  exact h1

/-- The sorted-position value of an original index: position
`indexOf i firsts` of the sorted value list holds the `i`-th p-value. -/
theorem sorted_vals_at_indexOf (ps : List ℚ) (i : ℕ) (hi : i < ps.length) :
    ((List.insertionSort pairLE ps.enum).map (fun x => x.2)).getD
      (List.indexOf i ((List.insertionSort pairLE ps.enum).map (fun x => x.1))) 0
      = ps.getD i 0 := by
  have hperm := List.perm_insertionSort pairLE ps.enum
  have hji : List.indexOf i ((List.insertionSort pairLE ps.enum).map (fun x => x.1))
      < ((List.insertionSort pairLE ps.enum).map (fun x => x.1)).length :=
    List.indexOf_lt_length.mpr (firsts_mem ps i hi)
  have hjL : List.indexOf i ((List.insertionSort pairLE ps.enum).map (fun x => x.1))
      < (List.insertionSort pairLE ps.enum).length := by
    rw [← List.length_map (List.insertionSort pairLE ps.enum) (fun x => x.1)]
    exact hji
  have hjv : List.indexOf i ((List.insertionSort pairLE ps.enum).map (fun x => x.1))
      < ((List.insertionSort pairLE ps.enum).map (fun x => x.2)).length := by
    rw [List.length_map]
    exact hjL
  have hfst : (List.insertionSort pairLE ps.enum)[List.indexOf i
      ((List.insertionSort pairLE ps.enum).map (fun x => x.1))].1 = i := by
    have h1 : ((List.insertionSort pairLE ps.enum).map (fun x => x.1))[List.indexOf i
        ((List.insertionSort pairLE ps.enum).map (fun x => x.1))] = i :=
      List.getElem_indexOf hji
    rw [List.getElem_map] at h1
    exact h1
  have hmem : (List.insertionSort pairLE ps.enum)[List.indexOf i
      ((List.insertionSort pairLE ps.enum).map (fun x => x.1))] ∈ ps.enum :=
    hperm.mem_iff.mp (List.getElem_mem hjL)
  have henum := List.mem_enum
    (show ((List.insertionSort pairLE ps.enum)[List.indexOf i
        ((List.insertionSort pairLE ps.enum).map (fun x => x.1))].1,
      (List.insertionSort pairLE ps.enum)[List.indexOf i
        ((List.insertionSort pairLE ps.enum).map (fun x => x.1))].2) ∈ ps.enum from hmem)
  rw [List.getD_eq_getElem _ _ hjv, List.getD_eq_getElem _ _ hi]
  rw [List.getElem_map]
  rw [henum.2]
  simp only [hfst]

/-- `fdrcorrection` at an original position, rewritten to the sorted pipeline. -/
theorem fdrcorrection_getD_eq (ps : List ℚ) (i : ℕ) (hi : i < ps.length) :
    (fdrcorrection ps).getD i 0 = (bhSorted ps.length
        ((List.insertionSort pairLE ps.enum).map (fun x => x.2))).getD
      (List.indexOf i ((List.insertionSort pairLE ps.enum).map (fun x => x.1))) 0 := by
  have hform : fdrcorrection ps = (List.range ps.length).map
      (fun t => (bhSorted ps.length
          ((List.insertionSort pairLE ps.enum).map (fun x => x.2))).getD
        (List.indexOf t ((List.insertionSort pairLE ps.enum).map (fun x => x.1))) 1) := rfl
  have hb : i < ((List.range ps.length).map
      (fun t => (bhSorted ps.length
          ((List.insertionSort pairLE ps.enum).map (fun x => x.2))).getD
        (List.indexOf t ((List.insertionSort pairLE ps.enum).map (fun x => x.1))) 1)).length := by
    rw [List.length_map, List.length_range]
    exact hi
  rw [hform, List.getD_eq_getElem _ _ hb]
  simp only [List.getElem_map, List.getElem_range]
  have hji : List.indexOf i ((List.insertionSort pairLE ps.enum).map (fun x => x.1))
      < (bhSorted ps.length ((List.insertionSort pairLE ps.enum).map (fun x => x.2))).length := by
    rw [bhSorted_length, sorted_vals_length, ← firsts_length ps]
    exact List.indexOf_lt_length.mpr (firsts_mem ps i hi)
  rw [List.getD_eq_getElem _ _ hji, List.getD_eq_getElem _ _ hji]

/-- The two Benjamini-Hochberg guarantees of `fdrcorrection` over the original
positions: each corrected value dominates its own p-value, and corrected
values are monotone in the p-values. -/
theorem fdrcorrection_core (ps : List ℚ) (h0 : ∀ p ∈ ps, 0 ≤ p) (h1 : ∀ p ∈ ps, p ≤ 1) :
    (∀ i, i < ps.length → ps.getD i 0 ≤ (fdrcorrection ps).getD i 0) ∧
    (∀ i j, i < ps.length → j < ps.length → ps.getD i 0 ≤ ps.getD j 0 →
      (fdrcorrection ps).getD i 0 ≤ (fdrcorrection ps).getD j 0) := by
  have h0v : ∀ v ∈ (List.insertionSort pairLE ps.enum).map (fun x => x.2), 0 ≤ v :=
    fun v hv => h0 v (sorted_vals_mem ps v hv)
  have hsort := sorted_vals_sorted ps
  constructor
  · intro i hi
    rw [fdrcorrection_getD_eq ps i hi, ← sorted_vals_at_indexOf ps i hi]
    refine bhSorted_ge_self ps.length _ (le_of_eq (sorted_vals_length ps)) h0v hsort _ ?_ ?_
    · rw [sorted_vals_length, ← firsts_length ps]
      exact List.indexOf_lt_length.mpr (firsts_mem ps i hi)
    · rw [sorted_vals_at_indexOf ps i hi]
      exact h1 _ (getD_mem hi)
  · intro i j hi hj hle
    rw [fdrcorrection_getD_eq ps i hi, fdrcorrection_getD_eq ps j hj]
    have hjib : List.indexOf i ((List.insertionSort pairLE ps.enum).map (fun x => x.1))
        < ((List.insertionSort pairLE ps.enum).map (fun x => x.2)).length := by
      rw [sorted_vals_length, ← firsts_length ps]
      exact List.indexOf_lt_length.mpr (firsts_mem ps i hi)
    have hjjb : List.indexOf j ((List.insertionSort pairLE ps.enum).map (fun x => x.1))
        < ((List.insertionSort pairLE ps.enum).map (fun x => x.2)).length := by
      rw [sorted_vals_length, ← firsts_length ps]
      exact List.indexOf_lt_length.mpr (firsts_mem ps j hj)
    rcases le_or_lt
        (List.indexOf i ((List.insertionSort pairLE ps.enum).map (fun x => x.1)))
        (List.indexOf j ((List.insertionSort pairLE ps.enum).map (fun x => x.1)))
      with hcase | hcase
    · exact bhSorted_mono ps.length _ _ _ hcase hjjb
    · have hvi := sorted_vals_at_indexOf ps i hi
      have hvj := sorted_vals_at_indexOf ps j hj
      have h1v : ((List.insertionSort pairLE ps.enum).map (fun x => x.2)).getD
          (List.indexOf j ((List.insertionSort pairLE ps.enum).map (fun x => x.1))) 0
          ≤ ((List.insertionSort pairLE ps.enum).map (fun x => x.2)).getD
          (List.indexOf i ((List.insertionSort pairLE ps.enum).map (fun x => x.1))) 0 :=
        sorted_getD_mono hsort (le_of_lt hcase) hjib
      have h2v : ((List.insertionSort pairLE ps.enum).map (fun x => x.2)).getD
          (List.indexOf i ((List.insertionSort pairLE ps.enum).map (fun x => x.1))) 0
          ≤ ((List.insertionSort pairLE ps.enum).map (fun x => x.2)).getD
          (List.indexOf j ((List.insertionSort pairLE ps.enum).map (fun x => x.1))) 0 := by
        rw [hvi, hvj]
        exact hle
      have heqv := le_antisymm h1v h2v
      have hcongr := bhSorted_congr ps.length _ h0v hsort _ _ (le_of_lt hcase) hjib heqv
      rw [← hcongr]

theorem hypergeomSF_nonneg (M n N : ℕ) (k : ℤ) : 0 ≤ hypergeomSF M n N k := by
  unfold hypergeomSF
  refine Finset.sum_nonneg ?_
  intro j _
  by_cases hj : k < (j : ℤ)
  · rw [if_pos hj]
    exact hypergeomPMF_nonneg M n N j
  · rw [if_neg hj]

/-- The survival function is a probability: at most one (the whole mass
sums to one by Vandermonde's identity whenever the success count fits in
the population; with an oversized draw count the binomial coefficient
vanishes and every term is zero). -/
theorem hypergeomSF_le_one (M n N : ℕ) (k : ℤ) (h : n ≤ M) : hypergeomSF M n N k ≤ 1 := by
  by_cases hC : ((M.choose N : ℚ)) = 0
  · have hz : hypergeomSF M n N k = 0 := by
      unfold hypergeomSF
      refine Finset.sum_eq_zero ?_
      intro j _
      by_cases hj : k < (j : ℤ)
      · rw [if_pos hj]
        unfold hypergeomPMF
        rw [hC, div_zero]
      · rw [if_neg hj]
    rw [hz]
    norm_num
  · have hle : hypergeomSF M n N k ≤ ∑ j ∈ Finset.range (N + 1), hypergeomPMF M n N j := by
      unfold hypergeomSF
      refine Finset.sum_le_sum ?_
      intro j _
      by_cases hj : k < (j : ℤ)
      · rw [if_pos hj]
      · rw [if_neg hj]
        exact hypergeomPMF_nonneg M n N j
    have hnat : ∑ j ∈ Finset.range (N + 1), n.choose j * (M - n).choose (N - j)
        = M.choose N := by
      have hv := Nat.add_choose_eq n (M - n) N
      rw [Nat.add_sub_cancel' h] at hv
      rw [hv, Finset.Nat.sum_antidiagonal_eq_sum_range_succ_mk]
    have hsum : ∑ j ∈ Finset.range (N + 1), hypergeomPMF M n N j = 1 := by
      unfold hypergeomPMF
      rw [← Finset.sum_div, div_eq_one_iff_eq hC]
      calc ∑ j ∈ Finset.range (N + 1), ((n.choose j : ℚ) * ((M - n).choose (N - j) : ℚ))
          = ((∑ j ∈ Finset.range (N + 1), n.choose j * (M - n).choose (N - j) : ℕ) : ℚ) := by
            push_cast
            rfl
      _ = (M.choose N : ℚ) := by rw [hnat]
    rw [← hsum]
    exact hle

/-- C2: in every `analyse` result over gene sets that fit in the
background population, each record's FDR q-value is at least its own raw
p-value, and any two records' q-values are ordered like their p-values —
so ordering the records by ascending p-value makes the q-values
monotonically non-decreasing (the Benjamini-Hochberg property of the
`fdr_bh` correction applied globally across the call's retained pairs). -/
theorem analyse_fdr_bh_property :
    ∀ (A B : Cluster) (n : Option ℕ) (recs : List OverlapRecord),
      (∀ mA ∈ A, mA.genes.card ≤ backgroundCount n) →
      analyse A B n = .ok recs →
      (∀ r ∈ recs, r.pvalue ≤ r.fdr) ∧
      (∀ r ∈ recs, ∀ s ∈ recs, r.pvalue ≤ s.pvalue → r.fdr ≤ s.fdr) := by
  intro A B n recs hA hok
  have h0 : ∀ p ∈ analysePvals A B (backgroundCount n), 0 ≤ p := by
    intro p hp
    rw [analysePvals, List.mem_map] at hp
    obtain ⟨pair, _, rfl⟩ := hp
    exact hypergeomSF_nonneg _ _ _ _
  have h1 : ∀ p ∈ analysePvals A B (backgroundCount n), p ≤ 1 := by
    intro p hp
    rw [analysePvals, List.mem_map] at hp
    obtain ⟨pair, hpair, rfl⟩ := hp
    have hmemA : pair.mA ∈ A := (overlapPairs_fields (mem_retainedPairs.mp hpair).1).1
    exact hypergeomSF_le_one _ _ _ _ (hA pair.mA hmemA)
  have hcore := fdrcorrection_core (analysePvals A B (backgroundCount n)) h0 h1
  constructor
  · intro r hr
    obtain ⟨t, hm, _, _, _, hpv, hfd⟩ := analyse_mem_elim hok hr
    rw [hpv, hfd]
    exact hcore.1 t (by rw [analysePvals_length]; exact hm)
  · intro r hr s hs hle
    obtain ⟨t, hmt, _, _, _, hpt, hft⟩ := analyse_mem_elim hok hr
    obtain ⟨u, hmu, _, _, _, hpu, hfu⟩ := analyse_mem_elim hok hs
    rw [hft, hfu]
    refine hcore.2 t u (by rw [analysePvals_length]; exact hmt)
      (by rw [analysePvals_length]; exact hmu) ?_
    rw [← hpt, ← hpu]
    exact hle

/-- C2 witness: the concrete two-module analysis and its evaluated
record list. -/
theorem analyse_fdr_bh_property_witness :
    (∀ r ∈ ([⟨0, 3, {1}, 17/45, 17/45⟩] : List OverlapRecord), r.pvalue ≤ r.fdr) ∧
    (∀ r ∈ ([⟨0, 3, {1}, 17/45, 17/45⟩] : List OverlapRecord),
      ∀ s ∈ ([⟨0, 3, {1}, 17/45, 17/45⟩] : List OverlapRecord),
        r.pvalue ≤ s.pvalue → r.fdr ≤ s.fdr) :=
  analyse_fdr_bh_property [⟨0, {1, 2}⟩] [⟨3, {1, 4}⟩] (some 10)
    [⟨0, 3, {1}, 17/45, 17/45⟩] (by decide) analyse_example

end Fipy
